import Mathlib

/-!
Verification of the pip-accel local cache backend (`pip_accel/caches/local.py`)
and its exception taxonomy (`pip_accel/exceptions.py`).

The filesystem is modelled as a partial map from paths (lists of name
components) to entries (regular files with byte content, or directories).
`LocalCacheBackend.get` and `LocalCacheBackend.put` are embedded as explicit
state-passing functions over this filesystem, following the Python source
line by line.  The helpers `AtomicReplace` and `makedirs` come from
`pip_accel.utils`, which is not part of the source excerpt; they are modelled
from the specification (see the doc comments on `atomicReplace` and
`makedirs`).
-/

namespace PipAccel

/-- A filesystem entry: a regular file with byte content, or a directory. -/
inductive Entry where
  | file (content : List Nat)
  | dir
deriving DecidableEq, Repr

/-- A path is a list of name components (`os.path.join` concatenates them). -/
abbrev Path := List String

/-- A filesystem state: a partial map from paths to entries. -/
def FS : Type := Path → Option Entry

/-- The empty filesystem. -/
def emptyFS : FS := fun _ => none

/-- Create or overwrite the entry at a path. -/
def setF (p : Path) (v : Entry) (fs : FS) : FS :=
  fun q => if q = p then some v else fs q

/-- Delete the entry at a path (`os.remove`). -/
def removeF (p : Path) (fs : FS) : FS :=
  fun q => if q = p then none else fs q

/-- `os.rename src tgt`: the target atomically receives the entry previously
at the source, and the source ceases to exist.  (Used only with
`src ≠ tgt`.) -/
def renameF (src tgt : Path) (fs : FS) : FS :=
  fun q => if q = src then none else if q = tgt then fs src else fs q

/-- Append bytes to the regular file at a path (a `write` on a handle opened
with mode `wb`; the file was created/truncated by the open). -/
def appendF (p : Path) (c : List Nat) (fs : FS) : FS :=
  match fs p with
  | some (.file old) => setF p (.file (old ++ c)) fs
  | _ => setF p (.file c) fs

/-- `os.path.dirname` on a component list. -/
def os_path_dirname (p : Path) : Path := p.dropLast

/-- `os.path.isfile`: true exactly for an existing regular file.  Reads the
filesystem and leaves it unchanged. -/
def os_path_isfile (p : Path) (fs : FS) : Bool × FS :=
  (match fs p with
   | some (.file _) => true
   | _ => false,
   fs)

/-! ### Exception taxonomy (`pip_accel/exceptions.py`) -/

/-- The exception classes of `pip_accel.exceptions`, together with the Python
built-ins they can meet at runtime (`Exception`, `OSError`, `IOError`). -/
inductive ExcClass where
  | Exception
  | OSError
  | IOError
  | PipAcceleratorError
  | NothingToDoError
  | EnvironmentMismatchError
  | UnknownDistributionFormat
  | BinaryDistributionError
  | InvalidSourceDistribution
  | BuildFailed
  | NoBuildOutput
  | CacheBackendError
  | CacheBackendDisabledError
  | SystemDependencyError
  | DependencyInstallationRefused
  | DependencyInstallationFailed
deriving DecidableEq, Repr

/-- The direct base class of each exception class, exactly as written in the
`class ... (Base):` headers of `pip_accel/exceptions.py` (and, for the
built-ins, in CPython). -/
def pyBase : ExcClass → Option ExcClass
  | .Exception => none
  | .OSError => some .Exception
  | .IOError => some .OSError
  | .PipAcceleratorError => some .Exception
  | .NothingToDoError => some .PipAcceleratorError
  | .EnvironmentMismatchError => some .PipAcceleratorError
  | .UnknownDistributionFormat => some .PipAcceleratorError
  | .BinaryDistributionError => some .PipAcceleratorError
  | .InvalidSourceDistribution => some .BinaryDistributionError
  | .BuildFailed => some .BinaryDistributionError
  | .NoBuildOutput => some .BinaryDistributionError
  | .CacheBackendError => some .PipAcceleratorError
  | .CacheBackendDisabledError => some .CacheBackendError
  | .SystemDependencyError => some .PipAcceleratorError
  | .DependencyInstallationRefused => some .SystemDependencyError
  | .DependencyInstallationFailed => some .SystemDependencyError

/-- The method-resolution chain of a class obtained by following `pyBase`,
with enough fuel for the (depth ≤ 4) hierarchy. -/
def mroAux : Nat → ExcClass → List ExcClass
  | 0, c => [c]
  | n + 1, c =>
    c :: (match pyBase c with
          | none => []
          | some p => mroAux n p)

/-- The linearised ancestor chain of an exception class (itself included). -/
def mro (c : ExcClass) : List ExcClass := mroAux 16 c

/-- Python `issubclass`: `c` is `d` or inherits from it. -/
def isSubclass (c d : ExcClass) : Bool := d ∈ mro c

/-- A raised Python exception, identified by its class (callers match on the
class, never on the message string). -/
structure PyErr where
  cls : ExcClass
deriving DecidableEq, Repr

/-- The error raised by a failing filesystem/directory operation. -/
def osErr : PyErr := ⟨.OSError⟩

/-- The error raised by a failing read on the input stream. -/
def ioErr : PyErr := ⟨.IOError⟩

/-! ### `makedirs` (from `pip_accel.utils`, modelled from the spec) -/

/-- The chain of ancestor paths of a directory, shortest first:
`chain [a, b] = [[a], [a, b]]`. -/
def chain : Path → List Path
  | [] => []
  | x :: xs => [x] :: (chain xs).map (x :: ·)

/-- Process the ancestor chain: create each missing directory, tolerate an
already existing directory, and fail when a regular file occupies a needed
path. -/
def mkdirsGo : List Path → FS → Option PyErr × FS
  | [], fs => (none, fs)
  | p :: ps, fs =>
    match fs p with
    | some (.file _) => (some osErr, fs)
    | some .dir => mkdirsGo ps fs
    | none => mkdirsGo ps (setF p .dir fs)

/-- Modelled from the spec: `makedirs` of `pip_accel.utils` is not in the
source excerpt.  Per §4.3/§4.4 of the spec, `put` "must create any
intermediate storage structure (directories …) needed to hold the artifact"
and "ensures the parent directory chain exists before writing"; existing
directories are tolerated, while a non-directory in the way is an operating
system error. -/
def makedirs (d : Path) (fs : FS) : Option PyErr × FS :=
  mkdirsGo (chain d) fs

/-! ### `AtomicReplace` (from `pip_accel.utils`, modelled from the spec) -/

/-- The temporary name component for a target entry and a writing process:
a hidden name in the same directory, made unique by the process id. -/
def tmpComp (entry : String) (pid : Nat) : String :=
  "." ++ entry ++ "-" ++ Nat.repr pid ++ ".tmp"

/-- The temporary path used by the atomic write primitive: same directory as
the target, pid-unique name. -/
def tmpName (target : Path) (pid : Nat) : Path :=
  os_path_dirname target ++ [tmpComp (target.getLast?.getD "") pid]

/-- Modelled from the spec: `AtomicReplace` of `pip_accel.utils` is not in
the source excerpt.  Per §4.2 of the spec, the scoped primitive yields a
temporary path in the same directory as the target (unique per process); on
normal exit from the scope it renames the temporary path onto the target
(the single atomic commit point); on error exit it deletes the temporary
path and does not touch the target. -/
def atomicReplace (target : Path) (pid : Nat)
    (body : Path → FS → Option PyErr × FS) (fs : FS) : Option PyErr × FS :=
  let tmp := tmpName target pid
  match body tmp fs with
  | (none, fs1) => (none, renameF tmp target fs1)
  | (some e, fs1) => (some e, removeF tmp fs1)

/-! ### The local cache backend (`pip_accel/caches/local.py`) -/

/-- The input stream passed to `put`: the chunks successfully delivered by
successive reads, and whether the stream faults (raises an I/O error) after
delivering them. -/
structure Handle where
  chunks : List (List Nat)
  fault : Bool
deriving DecidableEq, Repr

/-- All bytes delivered by the stream. -/
def Handle.bytes (h : Handle) : List Nat := h.chunks.flatten

/-- The body of the `with AtomicReplace(...)` block in
`LocalCacheBackend.put`: `open(temporary_file, 'wb')` creates/truncates the
temporary file, then `shutil.copyfileobj` copies the stream chunk by chunk;
a stream fault propagates out of the scope after the delivered chunks were
written. -/
def writeScope (h : Handle) (tmp : Path) (fs : FS) : Option PyErr × FS :=
  let fs1 := setF tmp (.file []) fs
  let fs2 := h.chunks.foldl (fun acc c => appendF tmp c acc) fs1
  (if h.fault then some ioErr else none, fs2)

/-- `LocalCacheBackend.get`: join the cache root with the filename, test
`os.path.isfile`, and return the pathname on a hit or `None` on a miss.
`root` plays the role of `self.config.binary_cache`. -/
def get (root : Path) (filename : String) (fs : FS) : Option Path × FS :=
  let pathname := root ++ [filename]
  let r := os_path_isfile pathname fs
  if r.1 then (some pathname, r.2) else (none, r.2)

/-- `LocalCacheBackend.put`: join the cache root with the filename, ensure
the parent directory chain exists, then stream the handle into the atomic
write primitive scoped to the final path. -/
def put (root : Path) (filename : String) (pid : Nat) (h : Handle)
    (fs : FS) : Option PyErr × FS :=
  let file_in_cache := root ++ [filename]
  let md := makedirs (os_path_dirname file_in_cache) fs
  match md.1 with
  | some e => (some e, md.2)
  | none => atomicReplace file_in_cache pid (writeScope h) md.2

/-! ### Interleaving semantics for two concurrent `put` calls

Two independent processes run `put` against the same shared filesystem.
Each writer's execution is decomposed into the filesystem-visible steps of
`put`: create the parent directory chain, create/truncate its private
temporary file, append the stream chunks one at a time, and finally commit
with the single atomic rename.  A schedule interleaves the two writers
arbitrarily.  (Collapsing the directory-creation syscalls into one step is
harmless: they touch only the parent chain, which is disjoint from both
temporary files and from the target, and the model lets a writer continue
past them in every case, which only enlarges the set of behaviours.) -/

/-- The per-writer configuration: the parent directory chain to create, the
private temporary path, and the shared target path. -/
structure WCfg where
  dirs : List Path
  tmp : Path
  target : Path

/-- The control state of one writer: which phase it has reached, the bytes
already written to its temporary file, and the chunks still to write. -/
structure WState where
  prepped : Bool
  opened : Bool
  written : List Nat
  rest : List (List Nat)
  committed : Bool
deriving DecidableEq, Repr

/-- The initial state of a writer about to `put` the given chunks. -/
def initW (chunks : List (List Nat)) : WState :=
  { prepped := false, opened := false, written := [], rest := chunks,
    committed := false }

/-- One atomic step of a writer: directory preparation, temp-file creation
(`open` with mode `wb`), one chunk write, or the commit rename.  A writer
past its last step idles. -/
def stepW (c : WCfg) (w : WState) (fs : FS) : WState × FS :=
  if !w.prepped then
    ({ w with prepped := true }, (mkdirsGo c.dirs fs).2)
  else if !w.opened then
    ({ w with opened := true, written := [] }, setF c.tmp (.file []) fs)
  else
    match w.rest with
    | chk :: cs =>
      ({ w with written := w.written ++ chk, rest := cs }, appendF c.tmp chk fs)
    | [] =>
      if !w.committed then
        ({ w with committed := true }, renameF c.tmp c.target fs)
      else (w, fs)

/-- A writer that has performed all of its steps, including the commit. -/
def WState.done (w : WState) : Bool :=
  w.prepped && w.opened && w.rest.isEmpty && w.committed

/-- Run a schedule: each `true` lets writer 1 take its next step, each
`false` lets writer 2. -/
def execSched (c1 c2 : WCfg) : List Bool → WState × WState × FS → WState × WState × FS
  | [], s => s
  | b :: σ, (w1, w2, fs) =>
    if b then
      let r := stepW c1 w1 fs
      execSched c1 c2 σ (r.1, w2, r.2)
    else
      let r := stepW c2 w2 fs
      execSched c1 c2 σ (w1, r.1, r.2)

/-- The writer configuration with which `put root f pid` runs its steps:
create the parent chain of the cache root, write through the pid-unique
temporary path, commit onto the cache path. -/
def putCfg (root : Path) (f : String) (pid : Nat) : WCfg :=
  { dirs := chain root, tmp := tmpName (root ++ [f]) pid, target := root ++ [f] }

/-- Single-writer invariant: the written prefix and the pending chunks
always recombine to the payload, the phases happen in order, and between
the temp-file creation and the commit the temporary file holds exactly the
written prefix. -/
def WInv (c : WCfg) (chunks : List (List Nat)) (w : WState) (fs : FS) : Prop :=
  w.written ++ w.rest.flatten = chunks.flatten ∧
  (w.opened = false → w.written = [] ∧ w.rest = chunks ∧ w.committed = false) ∧
  (w.committed = true → w.opened = true ∧ w.rest = []) ∧
  (w.opened = true → w.committed = false → fs c.tmp = some (.file w.written))

/-- Separation conditions between the two writers' configurations: same
target, distinct private temporary paths, and a parent directory chain
disjoint from all data paths. -/
def WCfgOk (c1 c2 : WCfg) : Prop :=
  c2.target = c1.target ∧
  c1.tmp ≠ c2.tmp ∧
  c1.tmp ≠ c1.target ∧ c2.tmp ≠ c1.target ∧
  (∀ p ∈ c1.dirs, p ≠ c1.tmp ∧ p ≠ c2.tmp ∧ p ≠ c1.target) ∧
  (∀ p ∈ c2.dirs, p ≠ c1.tmp ∧ p ≠ c2.tmp ∧ p ≠ c1.target)

/-- Two-writer invariant: each writer's invariant holds, and once either
writer has committed, the target holds one complete payload. -/
def TInv (c1 c2 : WCfg) (k1 k2 : List (List Nat)) (w1 w2 : WState)
    (fs : FS) : Prop :=
  WInv c1 k1 w1 fs ∧ WInv c2 k2 w2 fs ∧
  (w1.committed = true ∨ w2.committed = true →
    fs c1.target = some (.file k1.flatten) ∨
    fs c1.target = some (.file k2.flatten))

/-! ### Basic filesystem lemmas -/

theorem setF_self (p : Path) (v : Entry) (fs : FS) : setF p v fs p = some v := by
  simp [setF]

theorem setF_other (p : Path) (v : Entry) (fs : FS) {q : Path} (hq : q ≠ p) :
    setF p v fs q = fs q := by
  simp [setF, hq]

theorem removeF_self (p : Path) (fs : FS) : removeF p fs p = none := by
  simp [removeF]

theorem removeF_other (p : Path) (fs : FS) {q : Path} (hq : q ≠ p) :
    removeF p fs q = fs q := by
  simp [removeF, hq]

theorem renameF_src (src tgt : Path) (fs : FS) : renameF src tgt fs src = none := by
  simp [renameF]

theorem renameF_tgt (src tgt : Path) (fs : FS) (h : tgt ≠ src) :
    renameF src tgt fs tgt = fs src := by
  simp [renameF, h]

theorem renameF_other (src tgt : Path) (fs : FS) {q : Path}
    (h1 : q ≠ src) (h2 : q ≠ tgt) : renameF src tgt fs q = fs q := by
  simp [renameF, h1, h2]

theorem appendF_other (p : Path) (c : List Nat) (fs : FS) {q : Path}
    (hq : q ≠ p) : appendF p c fs q = fs q := by
  unfold appendF
  cases hfs : fs p with
  | none => simp [setF, hq]
  | some e => cases e <;> simp [setF, hq]

theorem appendF_file (p : Path) (c : List Nat) (fs : FS) {old : List Nat}
    (hfs : fs p = some (.file old)) :
    appendF p c fs p = some (.file (old ++ c)) := by
  unfold appendF
  rw [hfs]
  simp [setF]

/-! ### Lemmas about the chunk-copy loop -/

theorem fold_append_content (tmp : Path) (chunks : List (List Nat)) :
    ∀ (fs : FS) (acc : List Nat), fs tmp = some (.file acc) →
      (chunks.foldl (fun a c => appendF tmp c a) fs) tmp
        = some (.file (acc ++ chunks.flatten)) := by
  induction chunks with
  | nil => intro fs acc hacc; simpa using hacc
  | cons c cs ih =>
    intro fs acc hacc
    have h1 : appendF tmp c fs tmp = some (.file (acc ++ c)) :=
      appendF_file tmp c fs hacc
    simpa [List.append_assoc] using ih (appendF tmp c fs) (acc ++ c) h1

theorem fold_append_frame (tmp : Path) (chunks : List (List Nat)) {q : Path}
    (hq : q ≠ tmp) :
    ∀ fs : FS, (chunks.foldl (fun a c => appendF tmp c a) fs) q = fs q := by
  induction chunks with
  | nil => intro fs; rfl
  | cons c cs ih =>
    intro fs
    simpa [appendF_other tmp c fs hq] using ih (appendF tmp c fs)

/-! ### Lemmas about `writeScope` -/

theorem writeScope_fst (h : Handle) (tmp : Path) (fs : FS) :
    (writeScope h tmp fs).1 = if h.fault then some ioErr else none := rfl

theorem writeScope_tmp (h : Handle) (tmp : Path) (fs : FS) :
    (writeScope h tmp fs).2 tmp = some (.file h.bytes) := by
  unfold writeScope Handle.bytes
  simpa using fold_append_content tmp h.chunks (setF tmp (.file []) fs) []
    (setF_self tmp (.file []) fs)

theorem writeScope_frame (h : Handle) (tmp : Path) (fs : FS) {q : Path}
    (hq : q ≠ tmp) : (writeScope h tmp fs).2 q = fs q := by
  unfold writeScope
  simpa [fold_append_frame tmp h.chunks hq] using setF_other tmp (.file []) fs hq

/-! ### Lemmas about the directory chain and `makedirs` -/

theorem chain_mem_length {d : Path} {p : Path} (hp : p ∈ chain d) :
    1 ≤ p.length ∧ p.length ≤ d.length := by
  induction d generalizing p with
  | nil => cases hp
  | cons x xs ih =>
    rcases List.mem_cons.mp hp with h | h
    · subst h; simp
    · rcases List.mem_map.mp h with ⟨p', hp', rfl⟩
      obtain ⟨h1, h2⟩ := ih hp'
      simp only [List.length_cons]
      omega

theorem concat_not_mem_chain (root : Path) (x : String) (d : Path)
    (hd : d.length ≤ root.length) : root ++ [x] ∉ chain d := by
  intro hmem
  have := chain_mem_length hmem
  simp at this
  omega

theorem mkdirsGo_frame (ps : List Path) {q : Path} :
    ∀ fs : FS, q ∉ ps → (mkdirsGo ps fs).2 q = fs q := by
  induction ps with
  | nil => intro fs _; rfl
  | cons p ps ih =>
    intro fs hq
    have hqp : q ≠ p := fun h => hq (h ▸ List.mem_cons_self p ps)
    have hqs : q ∉ ps := fun h => hq (List.mem_cons_of_mem p h)
    unfold mkdirsGo
    cases hfs : fs p with
    | none => simpa [setF_other p .dir fs hqp] using ih (setF p .dir fs) hqs
    | some e =>
      cases e with
      | file content => simp
      | dir => exact ih fs hqs

theorem mkdirsGo_preserves_dir (ps : List Path) :
    ∀ (fs : FS) (q : Path), fs q = some .dir → (mkdirsGo ps fs).2 q = some .dir := by
  induction ps with
  | nil => intro fs q hq; exact hq
  | cons p ps ih =>
    intro fs q hq
    unfold mkdirsGo
    cases hfs : fs p with
    | none =>
      refine ih (setF p .dir fs) q ?_
      by_cases hqp : q = p
      · subst hqp; exact setF_self q .dir fs
      · rw [setF_other p .dir fs hqp]; exact hq
    | some e =>
      cases e with
      | file content => exact hq
      | dir => exact ih fs q hq

theorem mkdirsGo_post (ps : List Path) :
    ∀ fs : FS, (mkdirsGo ps fs).1 = none →
      ∀ p ∈ ps, (mkdirsGo ps fs).2 p = some .dir := by
  induction ps with
  | nil => intro fs _ p hp; cases hp
  | cons r ps ih =>
    intro fs hok p hp
    unfold mkdirsGo at hok ⊢
    cases hfs : fs r with
    | none =>
      rw [hfs] at hok
      rcases List.mem_cons.mp hp with h | h
      · subst h
        exact mkdirsGo_preserves_dir ps (setF p .dir fs) p (setF_self p .dir fs)
      · exact ih (setF r .dir fs) hok p h
    | some e =>
      cases e with
      | file content => rw [hfs] at hok; simp at hok
      | dir =>
        rw [hfs] at hok
        rcases List.mem_cons.mp hp with h | h
        · subst h; exact mkdirsGo_preserves_dir ps fs p hfs
        · exact ih fs hok p h

theorem mkdirsGo_stable (ps : List Path) :
    ∀ fs : FS, (∀ p ∈ ps, fs p = some .dir) → mkdirsGo ps fs = (none, fs) := by
  induction ps with
  | nil => intro fs _; rfl
  | cons p ps ih =>
    intro fs hall
    unfold mkdirsGo
    rw [hall p (List.mem_cons_self p ps)]
    exact ih fs fun q hq => hall q (List.mem_cons_of_mem p hq)

/-! ### Lemmas about the temporary path -/

theorem os_path_dirname_concat (l : Path) (a : String) :
    os_path_dirname (l ++ [a]) = l := by
  simp [os_path_dirname]

theorem tmpName_concat (root : Path) (f : String) (pid : Nat) :
    tmpName (root ++ [f]) pid = root ++ [tmpComp f pid] := by
  simp [tmpName, os_path_dirname]

theorem tmpComp_length (f : String) (pid : Nat) :
    (tmpComp f pid).length = f.length + (Nat.repr pid).length + 6 := by
  have h1 : (".").length = 1 := rfl
  have h2 : ("-").length = 1 := rfl
  have h3 : (".tmp").length = 4 := rfl
  simp [tmpComp, String.length_append, h1, h2, h3]
  omega

theorem tmpComp_ne (f : String) (pid : Nat) : tmpComp f pid ≠ f := by
  intro h
  have := congrArg String.length h
  rw [tmpComp_length] at this
  omega

theorem tmpName_ne_target (root : Path) (f : String) (pid : Nat) :
    tmpName (root ++ [f]) pid ≠ root ++ [f] := by
  rw [tmpName_concat]
  intro h
  have h2 := List.append_cancel_left h
  exact tmpComp_ne f pid (List.singleton_injective h2)

theorem tmpComp_pid_ne (f : String) {pid1 pid2 : Nat}
    (h : Nat.repr pid1 ≠ Nat.repr pid2) : tmpComp f pid1 ≠ tmpComp f pid2 := by
  intro he
  apply h
  unfold tmpComp at he
  have hd := congrArg String.data he
  simp only [String.data_append] at hd
  have h1 := List.append_cancel_right hd
  have h2 := List.append_cancel_left h1
  exact String.ext h2

theorem tmpName_pid_ne (root : Path) (f : String) {pid1 pid2 : Nat}
    (h : Nat.repr pid1 ≠ Nat.repr pid2) :
    tmpName (root ++ [f]) pid1 ≠ tmpName (root ++ [f]) pid2 := by
  rw [tmpName_concat, tmpName_concat]
  intro he
  exact tmpComp_pid_ne f h (List.singleton_injective (List.append_cancel_left he))

/-! ### Characterisation of `put` -/

theorem chain_mem_ne_concat {root p : Path} (hp : p ∈ chain root) (x : String) :
    p ≠ root ++ [x] := by
  intro h
  subst h
  exact concat_not_mem_chain root x root (le_refl _) hp

theorem put_eq_of_mkdir_ok (root : Path) (f : String) (pid : Nat) (h : Handle)
    (fs : FS) (hmk : (makedirs root fs).1 = none) :
    put root f pid h fs =
      atomicReplace (root ++ [f]) pid (writeScope h) (makedirs root fs).2 := by
  unfold put
  simp only [os_path_dirname_concat, hmk]

theorem put_success_eq (root : Path) (f : String) (pid : Nat) (h : Handle)
    (fs : FS) (hmk : (makedirs root fs).1 = none) (hf : h.fault = false) :
    put root f pid h fs =
      (none, renameF (tmpName (root ++ [f]) pid) (root ++ [f])
        ((writeScope h (tmpName (root ++ [f]) pid) (makedirs root fs).2).2)) := by
  rw [put_eq_of_mkdir_ok root f pid h fs hmk]
  unfold atomicReplace writeScope
  simp [hf]

theorem put_fault_eq (root : Path) (f : String) (pid : Nat) (h : Handle)
    (fs : FS) (hmk : (makedirs root fs).1 = none) (hf : h.fault = true) :
    put root f pid h fs =
      (some ioErr, removeF (tmpName (root ++ [f]) pid)
        ((writeScope h (tmpName (root ++ [f]) pid) (makedirs root fs).2).2)) := by
  rw [put_eq_of_mkdir_ok root f pid h fs hmk]
  unfold atomicReplace writeScope
  simp [hf]

theorem put_fst (root : Path) (f : String) (pid : Nat) (h : Handle) (fs : FS) :
    (put root f pid h fs).1 =
      match (makedirs root fs).1 with
      | some e => some e
      | none => if h.fault then some ioErr else none := by
  unfold put
  simp only [os_path_dirname_concat]
  cases hm : (makedirs root fs).1 with
  | some e => simp
  | none =>
    unfold atomicReplace writeScope
    cases hf : h.fault <;> simp [hf]

theorem put_ok_iff (root : Path) (f : String) (pid : Nat) (h : Handle)
    (fs : FS) :
    (put root f pid h fs).1 = none ↔
      (makedirs root fs).1 = none ∧ h.fault = false := by
  rw [put_fst]
  cases hm : (makedirs root fs).1 <;> cases hf : h.fault <;> simp [hf]

theorem put_ok_target (root : Path) (f : String) (pid : Nat) (h : Handle)
    (fs : FS) (hmk : (makedirs root fs).1 = none) (hf : h.fault = false) :
    (put root f pid h fs).2 (root ++ [f]) = some (.file h.bytes) := by
  rw [put_success_eq root f pid h fs hmk hf]
  have hne : root ++ [f] ≠ tmpName (root ++ [f]) pid :=
    (tmpName_ne_target root f pid).symm
  show renameF _ _ _ (root ++ [f]) = _
  rw [renameF_tgt _ _ _ hne]
  exact writeScope_tmp h _ _

theorem put_ok_tmp_gone (root : Path) (f : String) (pid : Nat) (h : Handle)
    (fs : FS) (hmk : (makedirs root fs).1 = none) (hf : h.fault = false) :
    (put root f pid h fs).2 (tmpName (root ++ [f]) pid) = none := by
  rw [put_success_eq root f pid h fs hmk hf]
  exact renameF_src _ _ _

theorem put_ok_dirs (root : Path) (f : String) (pid : Nat) (h : Handle)
    (fs : FS) (hmk : (makedirs root fs).1 = none) (hf : h.fault = false) :
    ∀ p ∈ chain root, (put root f pid h fs).2 p = some .dir := by
  intro p hp
  rw [put_success_eq root f pid h fs hmk hf]
  have hpt : p ≠ root ++ [f] := chain_mem_ne_concat hp f
  have hptmp : p ≠ tmpName (root ++ [f]) pid := by
    rw [tmpName_concat]
    exact chain_mem_ne_concat hp _
  show renameF _ _ _ p = _
  rw [renameF_other _ _ _ hptmp hpt, writeScope_frame h _ _ hptmp]
  exact mkdirsGo_post (chain root) fs hmk p hp

theorem put_ok_frame (root : Path) (f : String) (pid : Nat) (h : Handle)
    (fs : FS) (hmk : (makedirs root fs).1 = none) (hf : h.fault = false)
    {q : Path} (hq1 : q ∉ chain root) (hq2 : q ≠ root ++ [f])
    (hq3 : q ≠ tmpName (root ++ [f]) pid) :
    (put root f pid h fs).2 q = fs q := by
  rw [put_success_eq root f pid h fs hmk hf]
  show renameF _ _ _ q = _
  rw [renameF_other _ _ _ hq3 hq2, writeScope_frame h _ _ hq3]
  exact mkdirsGo_frame (chain root) fs hq1

theorem mkdirsGo_err (ps : List Path) :
    ∀ (fs : FS) (e : PyErr), (mkdirsGo ps fs).1 = some e → e = osErr := by
  induction ps with
  | nil => intro fs e hmk; simp [mkdirsGo] at hmk
  | cons p ps ih =>
    intro fs e hmk
    unfold mkdirsGo at hmk
    cases hfs : fs p with
    | none => rw [hfs] at hmk; exact ih _ e hmk
    | some en =>
      cases en with
      | file c =>
        rw [hfs] at hmk
        simp at hmk
        exact hmk.symm
      | dir => rw [hfs] at hmk; exact ih fs e hmk

/-! ### The claims -/

/-- **C1.** If the write scope of `put(filename, handle)` exits with an error
after zero or more bytes were written to the temporary file, the temporary
path is deleted and the target path is left untouched: it is either absent
or holds its complete prior content, never a truncated or partial write. -/
theorem put_error_exit_cleanup (root : Path) (f : String) (pid : Nat)
    (h : Handle) (fs : FS) (hmk : (makedirs root fs).1 = none)
    (hf : h.fault = true) :
    (put root f pid h fs).2 (tmpName (root ++ [f]) pid) = none ∧
    (put root f pid h fs).2 (root ++ [f]) = fs (root ++ [f]) := by
  rw [put_fault_eq root f pid h fs hmk hf]
  have hne : root ++ [f] ≠ tmpName (root ++ [f]) pid :=
    (tmpName_ne_target root f pid).symm
  refine ⟨removeF_self _ _, ?_⟩
  show removeF _ _ (root ++ [f]) = _
  rw [removeF_other _ _ hne, writeScope_frame h _ _ hne]
  exact mkdirsGo_frame (chain root) fs (concat_not_mem_chain root f root (le_refl _))

theorem put_error_exit_cleanup_witness :
    ((makedirs ["c"] emptyFS).1 = none ∧ (Handle.mk [[1, 2]] true).fault = true) ∧
    ((put ["c"] "a" 0 ⟨[[1, 2]], true⟩ emptyFS).2 (tmpName (["c"] ++ ["a"]) 0) = none ∧
     (put ["c"] "a" 0 ⟨[[1, 2]], true⟩ emptyFS).2 (["c"] ++ ["a"]) = emptyFS (["c"] ++ ["a"])) :=
  ⟨⟨by decide, rfl⟩,
   put_error_exit_cleanup ["c"] "a" 0 ⟨[[1, 2]], true⟩ emptyFS (by decide) rfl⟩

/-- **C2.** Read-after-write: after a successful `put(f, b)`, `get(f)`
returns the cache pathname and the content stored there is exactly the
bytes delivered by the stream. -/
theorem get_after_put (root : Path) (f : String) (pid : Nat) (h : Handle)
    (fs : FS) (hp : (put root f pid h fs).1 = none) :
    (get root f ((put root f pid h fs).2)).1 = some (root ++ [f]) ∧
    ((put root f pid h fs).2) (root ++ [f]) = some (.file h.bytes) := by
  obtain ⟨hmk, hf⟩ := (put_ok_iff root f pid h fs).mp hp
  have htgt := put_ok_target root f pid h fs hmk hf
  refine ⟨?_, htgt⟩
  simp [get, os_path_isfile, htgt]

theorem get_after_put_witness :
    (put ["c"] "w" 1 ⟨[[3], [4]], false⟩ emptyFS).1 = none ∧
    ((get ["c"] "w" ((put ["c"] "w" 1 ⟨[[3], [4]], false⟩ emptyFS).2)).1 = some (["c"] ++ ["w"]) ∧
     ((put ["c"] "w" 1 ⟨[[3], [4]], false⟩ emptyFS).2) (["c"] ++ ["w"]) =
       some (.file (Handle.bytes ⟨[[3], [4]], false⟩))) :=
  ⟨by decide, get_after_put ["c"] "w" 1 ⟨[[3], [4]], false⟩ emptyFS (by decide)⟩

/-- **C3.** Clean miss: for a filename that was never written (no entry at
the cache path), `get` returns the miss signal `none`; the embedding of
`get` has no error outcome at all, so a miss is never an error. -/
theorem get_clean_miss (root : Path) (f : String) (fs : FS)
    (hmiss : fs (root ++ [f]) = none) : (get root f fs).1 = none := by
  simp [get, os_path_isfile, hmiss]

theorem get_clean_miss_witness :
    emptyFS (["c"] ++ ["nothere"]) = none ∧
    (get ["c"] "nothere" emptyFS).1 = none :=
  ⟨rfl, get_clean_miss ["c"] "nothere" emptyFS rfl⟩

/-- **C4.** A successful `put` leaves every directory of the parent chain
in place, commits exactly the bytes read from the stream under the final
path, and leaves no temporary file behind: the copy into the temporary file
happened in full before the commit. -/
theorem put_dirs_then_commit (root : Path) (f : String) (pid : Nat)
    (h : Handle) (fs : FS) (hp : (put root f pid h fs).1 = none) :
    (∀ p ∈ chain root, (put root f pid h fs).2 p = some .dir) ∧
    (put root f pid h fs).2 (root ++ [f]) = some (.file h.bytes) ∧
    (put root f pid h fs).2 (tmpName (root ++ [f]) pid) = none := by
  obtain ⟨hmk, hf⟩ := (put_ok_iff root f pid h fs).mp hp
  exact ⟨put_ok_dirs root f pid h fs hmk hf,
    put_ok_target root f pid h fs hmk hf,
    put_ok_tmp_gone root f pid h fs hmk hf⟩

theorem put_dirs_then_commit_witness :
    (put ["c", "d"] "x" 2 ⟨[[9]], false⟩ emptyFS).1 = none ∧
    ((∀ p ∈ chain ["c", "d"], (put ["c", "d"] "x" 2 ⟨[[9]], false⟩ emptyFS).2 p = some .dir) ∧
     (put ["c", "d"] "x" 2 ⟨[[9]], false⟩ emptyFS).2 (["c", "d"] ++ ["x"]) =
       some (.file (Handle.bytes ⟨[[9]], false⟩)) ∧
     (put ["c", "d"] "x" 2 ⟨[[9]], false⟩ emptyFS).2 (tmpName (["c", "d"] ++ ["x"]) 2) = none) :=
  ⟨by decide, put_dirs_then_commit ["c", "d"] "x" 2 ⟨[[9]], false⟩ emptyFS (by decide)⟩

/-- **C5.** Idempotent retry: after a successful `put(f, b)`, running the
same `put(f, b)` again succeeds; after each of the two calls `get(f)`
returns the cache path holding exactly `b`; the temporary path is gone, and
no path outside the parent directory chain, the target, and the (deleted)
temporary path was touched — in particular no residual temporary file
remains anywhere in the tree. -/
theorem put_retry_idempotent (root : Path) (f : String) (pid : Nat)
    (h : Handle) (fs : FS) (hp : (put root f pid h fs).1 = none) :
    (put root f pid h ((put root f pid h fs).2)).1 = none ∧
    (get root f ((put root f pid h fs).2)).1 = some (root ++ [f]) ∧
    ((put root f pid h fs).2) (root ++ [f]) = some (.file h.bytes) ∧
    (get root f ((put root f pid h ((put root f pid h fs).2)).2)).1 = some (root ++ [f]) ∧
    ((put root f pid h ((put root f pid h fs).2)).2) (root ++ [f]) = some (.file h.bytes) ∧
    ((put root f pid h ((put root f pid h fs).2)).2) (tmpName (root ++ [f]) pid) = none ∧
    (∀ q, q ∉ chain root → q ≠ root ++ [f] → q ≠ tmpName (root ++ [f]) pid →
      ((put root f pid h ((put root f pid h fs).2)).2) q = fs q) := by
  obtain ⟨hmk, hf⟩ := (put_ok_iff root f pid h fs).mp hp
  have hdirs := put_ok_dirs root f pid h fs hmk hf
  have hmk2 : (makedirs root ((put root f pid h fs).2)).1 = none := by
    unfold makedirs
    rw [mkdirsGo_stable (chain root) ((put root f pid h fs).2) hdirs]
  have htgt1 := put_ok_target root f pid h fs hmk hf
  have htgt2 := put_ok_target root f pid h ((put root f pid h fs).2) hmk2 hf
  refine ⟨(put_ok_iff root f pid h _).mpr ⟨hmk2, hf⟩, ?_, htgt1, ?_, htgt2,
    put_ok_tmp_gone root f pid h _ hmk2 hf, ?_⟩
  · simp [get, os_path_isfile, htgt1]
  · simp [get, os_path_isfile, htgt2]
  · intro q hq1 hq2 hq3
    rw [put_ok_frame root f pid h _ hmk2 hf hq1 hq2 hq3]
    exact put_ok_frame root f pid h fs hmk hf hq1 hq2 hq3

theorem put_retry_idempotent_witness :
    (put ["r"] "y" 3 ⟨[[5, 6]], false⟩ emptyFS).1 = none ∧
    ((put ["r"] "y" 3 ⟨[[5, 6]], false⟩ ((put ["r"] "y" 3 ⟨[[5, 6]], false⟩ emptyFS).2)).1 = none ∧
     (get ["r"] "y" ((put ["r"] "y" 3 ⟨[[5, 6]], false⟩ emptyFS).2)).1 = some (["r"] ++ ["y"]) ∧
     ((put ["r"] "y" 3 ⟨[[5, 6]], false⟩ emptyFS).2) (["r"] ++ ["y"]) =
       some (.file (Handle.bytes ⟨[[5, 6]], false⟩)) ∧
     (get ["r"] "y" ((put ["r"] "y" 3 ⟨[[5, 6]], false⟩ ((put ["r"] "y" 3 ⟨[[5, 6]], false⟩ emptyFS).2)).2)).1 = some (["r"] ++ ["y"]) ∧
     ((put ["r"] "y" 3 ⟨[[5, 6]], false⟩ ((put ["r"] "y" 3 ⟨[[5, 6]], false⟩ emptyFS).2)).2) (["r"] ++ ["y"]) =
       some (.file (Handle.bytes ⟨[[5, 6]], false⟩)) ∧
     ((put ["r"] "y" 3 ⟨[[5, 6]], false⟩ ((put ["r"] "y" 3 ⟨[[5, 6]], false⟩ emptyFS).2)).2) (tmpName (["r"] ++ ["y"]) 3) = none ∧
     (∀ q, q ∉ chain ["r"] → q ≠ ["r"] ++ ["y"] → q ≠ tmpName (["r"] ++ ["y"]) 3 →
       ((put ["r"] "y" 3 ⟨[[5, 6]], false⟩ ((put ["r"] "y" 3 ⟨[[5, 6]], false⟩ emptyFS).2)).2) q = emptyFS q)) :=
  ⟨by decide, put_retry_idempotent ["r"] "y" 3 ⟨[[5, 6]], false⟩ emptyFS (by decide)⟩

/-- **C6.** `get` is non-mutating: the filesystem state after a `get` call
is identical to the state before it; `get` performs only a path join and an
`isfile` test, neither of which creates or deletes anything. -/
theorem get_nonmutating (root : Path) (f : String) (fs : FS) :
    (get root f fs).2 = fs := by
  cases hfs : fs (root ++ [f]) with
  | none => simp [get, os_path_isfile, hfs]
  | some e => cases e <;> simp [get, os_path_isfile, hfs]

/-- **C7.** `CacheBackendDisabledError` is a strict subclass of
`CacheBackendError`: every disabled-backend failure is also a controlled
backend failure, yet the two kinds are distinguishable — a caller can match
on the disabled kind specifically, and matching on it does not catch the
base kind. -/
theorem disabled_error_refines_backend_error :
    isSubclass .CacheBackendDisabledError .CacheBackendError = true ∧
    ExcClass.CacheBackendDisabledError ≠ ExcClass.CacheBackendError ∧
    isSubclass .CacheBackendError .CacheBackendDisabledError = false := by
  decide

/-- **C9.** If the cache path exists but is not a regular file (in the
model: it is a directory), `get` returns the miss signal `none`, because
`os.path.isfile` accepts regular files only. -/
theorem get_nonfile_entry_miss (root : Path) (f : String) (fs : FS)
    (hdir : fs (root ++ [f]) = some .dir) : (get root f fs).1 = none := by
  simp [get, os_path_isfile, hdir]

theorem get_nonfile_entry_miss_witness :
    setF (["c"] ++ ["sub"]) .dir emptyFS (["c"] ++ ["sub"]) = some .dir ∧
    (get ["c"] "sub" (setF (["c"] ++ ["sub"]) .dir emptyFS)).1 = none :=
  ⟨by decide, get_nonfile_entry_miss ["c"] "sub" (setF (["c"] ++ ["sub"]) .dir emptyFS) (by decide)⟩

/-- **C10.** The local backend is never disabled: `get` has no error
outcome at all in the embedding, and every error `put` can propagate is an
operating-system or I/O error originating in the filesystem or the input
stream — its class is never `CacheBackendDisabledError`. -/
theorem local_backend_never_disabled (root : Path) (f : String) (pid : Nat)
    (h : Handle) (fs : FS) (e : PyErr)
    (he : (put root f pid h fs).1 = some e) :
    e.cls ≠ ExcClass.CacheBackendDisabledError := by
  rw [put_fst] at he
  cases hm : (makedirs root fs).1 with
  | some e' =>
    rw [hm] at he
    simp at he
    have : e' = osErr := mkdirsGo_err (chain root) fs e' hm
    rw [← he, this]
    decide
  | none =>
    rw [hm] at he
    cases hfault : h.fault with
    | false => rw [hfault] at he; simp at he
    | true =>
      rw [hfault] at he
      simp at he
      rw [← he]
      decide

theorem local_backend_never_disabled_witness :
    (put ["c"] "z" 1 ⟨[], true⟩ emptyFS).1 = some ioErr ∧
    ioErr.cls ≠ ExcClass.CacheBackendDisabledError :=
  ⟨by decide,
   local_backend_never_disabled ["c"] "z" 1 ⟨[], true⟩ emptyFS ioErr (by decide)⟩

/-! ### Interleaving lemmas for C8 -/

theorem stepW_prep {c : WCfg} {w : WState} {fs : FS} (hp : w.prepped = false) :
    stepW c w fs = ({ w with prepped := true }, (mkdirsGo c.dirs fs).2) := by
  simp [stepW, hp]

theorem stepW_open {c : WCfg} {w : WState} {fs : FS} (hp : w.prepped = true)
    (ho : w.opened = false) :
    stepW c w fs = ({ w with opened := true, written := [] },
      setF c.tmp (.file []) fs) := by
  simp [stepW, hp, ho]

theorem stepW_write {c : WCfg} {w : WState} {fs : FS} {chk : List Nat}
    {cs : List (List Nat)} (hp : w.prepped = true) (ho : w.opened = true)
    (hr : w.rest = chk :: cs) :
    stepW c w fs = ({ w with written := w.written ++ chk, rest := cs },
      appendF c.tmp chk fs) := by
  simp [stepW, hp, ho, hr]

theorem stepW_commit {c : WCfg} {w : WState} {fs : FS} (hp : w.prepped = true)
    (ho : w.opened = true) (hr : w.rest = []) (hc : w.committed = false) :
    stepW c w fs = ({ w with committed := true },
      renameF c.tmp c.target fs) := by
  simp [stepW, hp, ho, hr, hc]

theorem stepW_idle {c : WCfg} {w : WState} {fs : FS} (hp : w.prepped = true)
    (ho : w.opened = true) (hr : w.rest = []) (hc : w.committed = true) :
    stepW c w fs = (w, fs) := by
  simp [stepW, hp, ho, hr, hc]

theorem stepW_preserves_left (c1 c2 : WCfg) (k1 k2 : List (List Nat))
    (hok : WCfgOk c1 c2) {w1 w2 : WState} {fs : FS}
    (hinv : TInv c1 c2 k1 k2 w1 w2 fs) :
    TInv c1 c2 k1 k2 (stepW c1 w1 fs).1 w2 (stepW c1 w1 fs).2 := by
  obtain ⟨htgt, htmp, h1t, h2t, hd1, hd2⟩ := hok
  obtain ⟨⟨i1, i2, i3, i4⟩, ⟨j1, j2, j3, j4⟩, htar⟩ := hinv
  have hn1 : c1.tmp ∉ c1.dirs := fun hm => (hd1 _ hm).1 rfl
  have hn2 : c2.tmp ∉ c1.dirs := fun hm => (hd1 _ hm).2.1 rfl
  have hn3 : c1.target ∉ c1.dirs := fun hm => (hd1 _ hm).2.2 rfl
  have h2t1 : c2.tmp ≠ c1.tmp := Ne.symm htmp
  have ht1 : c1.target ≠ c1.tmp := Ne.symm h1t
  cases hp : w1.prepped with
  | false =>
    rw [stepW_prep hp]
    dsimp only
    refine ⟨⟨i1, i2, i3, ?_⟩, ⟨j1, j2, j3, ?_⟩, ?_⟩
    · intro ho hc
      rw [mkdirsGo_frame c1.dirs fs hn1]
      exact i4 ho hc
    · intro ho hc
      rw [mkdirsGo_frame c1.dirs fs hn2]
      exact j4 ho hc
    · intro hcom
      rw [mkdirsGo_frame c1.dirs fs hn3]
      exact htar hcom
  | true =>
    cases ho : w1.opened with
    | false =>
      rw [stepW_open hp ho]
      dsimp only
      obtain ⟨hw, hr, hc⟩ := i2 ho
      refine ⟨⟨?_, ?_, ?_, ?_⟩, ⟨j1, j2, j3, ?_⟩, ?_⟩
      · show ([] : List Nat) ++ _ = _
        rw [hw] at i1
        exact i1
      · intro hcontra
        exact Bool.noConfusion hcontra
      · intro hcontra
        have hx : w1.committed = true := hcontra
        rw [hc] at hx
        exact Bool.noConfusion hx
      · intro _ _
        exact setF_self _ _ _
      · intro ho2 hc2
        rw [setF_other _ _ _ h2t1]
        exact j4 ho2 hc2
      · intro hcom
        rw [setF_other _ _ _ ht1]
        exact htar hcom
    | true =>
      cases hr : w1.rest with
      | cons chk cs =>
        have hc : w1.committed = false := by
          cases hcc : w1.committed with
          | false => rfl
          | true =>
            rw [(i3 hcc).2] at hr
            exact List.noConfusion hr
        rw [stepW_write hp ho hr]
        dsimp only
        refine ⟨⟨?_, ?_, ?_, ?_⟩, ⟨j1, j2, j3, ?_⟩, ?_⟩
        · show (w1.written ++ chk) ++ cs.flatten = _
          rw [hr, List.flatten_cons] at i1
          rw [List.append_assoc]
          exact i1
        · intro hcontra
          have hx : w1.opened = false := hcontra
          rw [ho] at hx
          exact Bool.noConfusion hx
        · intro hcontra
          have hx : w1.committed = true := hcontra
          rw [hc] at hx
          exact Bool.noConfusion hx
        · intro _ _
          exact appendF_file _ _ _ (i4 ho hc)
        · intro ho2 hc2
          rw [appendF_other _ _ _ h2t1]
          exact j4 ho2 hc2
        · intro hcom
          rw [appendF_other _ _ _ ht1]
          exact htar hcom
      | nil =>
        cases hcc : w1.committed with
        | true =>
          rw [stepW_idle hp ho hr hcc]
          dsimp only
          exact ⟨⟨i1, i2, i3, i4⟩, ⟨j1, j2, j3, j4⟩, htar⟩
        | false =>
          rw [stepW_commit hp ho hr hcc]
          dsimp only
          have hwk : w1.written = k1.flatten := by
            rw [hr] at i1
            simpa using i1
          refine ⟨⟨i1, ?_, ?_, ?_⟩, ⟨j1, j2, j3, ?_⟩, ?_⟩
          · intro hcontra
            have hx : w1.opened = false := hcontra
            rw [ho] at hx
            exact Bool.noConfusion hx
          · intro _
            exact ⟨ho, hr⟩
          · intro _ hcontra
            exact Bool.noConfusion hcontra
          · intro ho2 hc2
            rw [renameF_other _ _ _ h2t1 h2t]
            exact j4 ho2 hc2
          · intro _
            left
            rw [renameF_tgt _ _ _ ht1, i4 ho hcc, hwk]

theorem stepW_preserves_right (c1 c2 : WCfg) (k1 k2 : List (List Nat))
    (hok : WCfgOk c1 c2) {w1 w2 : WState} {fs : FS}
    (hinv : TInv c1 c2 k1 k2 w1 w2 fs) :
    TInv c1 c2 k1 k2 w1 (stepW c2 w2 fs).1 (stepW c2 w2 fs).2 := by
  obtain ⟨htgt, htmp, h1t, h2t, hd1, hd2⟩ := hok
  obtain ⟨⟨i1, i2, i3, i4⟩, ⟨j1, j2, j3, j4⟩, htar⟩ := hinv
  have hn1 : c1.tmp ∉ c2.dirs := fun hm => (hd2 _ hm).1 rfl
  have hn2 : c2.tmp ∉ c2.dirs := fun hm => (hd2 _ hm).2.1 rfl
  have hn3 : c1.target ∉ c2.dirs := fun hm => (hd2 _ hm).2.2 rfl
  have h1t2 : c1.tmp ≠ c2.tmp := htmp
  have h2t2 : c2.tmp ≠ c2.target := by rw [htgt]; exact h2t
  have ht2 : c2.target ≠ c2.tmp := Ne.symm h2t2
  have ht1c : c1.target ≠ c2.tmp := Ne.symm h2t
  cases hp : w2.prepped with
  | false =>
    rw [stepW_prep hp]
    dsimp only
    refine ⟨⟨i1, i2, i3, ?_⟩, ⟨j1, j2, j3, ?_⟩, ?_⟩
    · intro ho hc
      rw [mkdirsGo_frame c2.dirs fs hn1]
      exact i4 ho hc
    · intro ho hc
      rw [mkdirsGo_frame c2.dirs fs hn2]
      exact j4 ho hc
    · intro hcom
      rw [mkdirsGo_frame c2.dirs fs hn3]
      exact htar hcom
  | true =>
    cases ho : w2.opened with
    | false =>
      rw [stepW_open hp ho]
      dsimp only
      obtain ⟨hw, hr, hc⟩ := j2 ho
      refine ⟨⟨i1, i2, i3, ?_⟩, ⟨?_, ?_, ?_, ?_⟩, ?_⟩
      · intro ho1 hc1
        rw [setF_other _ _ _ h1t2]
        exact i4 ho1 hc1
      · show ([] : List Nat) ++ _ = _
        rw [hw] at j1
        exact j1
      · intro hcontra
        exact Bool.noConfusion hcontra
      · intro hcontra
        have hx : w2.committed = true := hcontra
        rw [hc] at hx
        exact Bool.noConfusion hx
      · intro _ _
        exact setF_self _ _ _
      · intro hcom
        rw [setF_other _ _ _ ht1c]
        exact htar hcom
    | true =>
      cases hr : w2.rest with
      | cons chk cs =>
        have hc : w2.committed = false := by
          cases hcc : w2.committed with
          | false => rfl
          | true =>
            rw [(j3 hcc).2] at hr
            exact List.noConfusion hr
        rw [stepW_write hp ho hr]
        dsimp only
        refine ⟨⟨i1, i2, i3, ?_⟩, ⟨?_, ?_, ?_, ?_⟩, ?_⟩
        · intro ho1 hc1
          rw [appendF_other _ _ _ h1t2]
          exact i4 ho1 hc1
        · show (w2.written ++ chk) ++ cs.flatten = _
          rw [hr, List.flatten_cons] at j1
          rw [List.append_assoc]
          exact j1
        · intro hcontra
          have hx : w2.opened = false := hcontra
          rw [ho] at hx
          exact Bool.noConfusion hx
        · intro hcontra
          have hx : w2.committed = true := hcontra
          rw [hc] at hx
          exact Bool.noConfusion hx
        · intro _ _
          exact appendF_file _ _ _ (j4 ho hc)
        · intro hcom
          rw [appendF_other _ _ _ ht1c]
          exact htar hcom
      | nil =>
        cases hcc : w2.committed with
        | true =>
          rw [stepW_idle hp ho hr hcc]
          dsimp only
          exact ⟨⟨i1, i2, i3, i4⟩, ⟨j1, j2, j3, j4⟩, htar⟩
        | false =>
          rw [stepW_commit hp ho hr hcc]
          dsimp only
          have hwk : w2.written = k2.flatten := by
            rw [hr] at j1
            simpa using j1
          refine ⟨⟨i1, i2, i3, ?_⟩, ⟨j1, ?_, ?_, ?_⟩, ?_⟩
          · intro ho1 hc1
            rw [renameF_other _ _ _ h1t2 ?_]
            · exact i4 ho1 hc1
            · rw [htgt]
              exact h1t
          · intro hcontra
            have hx : w2.opened = false := hcontra
            rw [ho] at hx
            exact Bool.noConfusion hx
          · intro _
            exact ⟨ho, hr⟩
          · intro _ hcontra
            exact Bool.noConfusion hcontra
          · intro _
            right
            rw [← htgt, renameF_tgt _ _ _ ht2, j4 ho hcc, hwk]

theorem execSched_inv (c1 c2 : WCfg) (k1 k2 : List (List Nat))
    (hok : WCfgOk c1 c2) :
    ∀ (σ : List Bool) (w1 w2 : WState) (fs : FS),
      TInv c1 c2 k1 k2 w1 w2 fs →
      TInv c1 c2 k1 k2 (execSched c1 c2 σ (w1, w2, fs)).1
        (execSched c1 c2 σ (w1, w2, fs)).2.1
        (execSched c1 c2 σ (w1, w2, fs)).2.2 := by
  intro σ
  induction σ with
  | nil => intro w1 w2 fs hinv; exact hinv
  | cons b σ ih =>
    intro w1 w2 fs hinv
    cases b with
    | true =>
      have hstep := stepW_preserves_left c1 c2 k1 k2 hok hinv
      simpa [execSched] using ih (stepW c1 w1 fs).1 w2 (stepW c1 w1 fs).2 hstep
    | false =>
      have hstep := stepW_preserves_right c1 c2 k1 k2 hok hinv
      simpa [execSched] using ih w1 (stepW c2 w2 fs).1 (stepW c2 w2 fs).2 hstep

/-- **C8.** Two interleaved `put(f, b1)` and `put(f, b2)` runs from
independent processes (whose pids have distinct decimal representations,
hence distinct temporary paths) never leave the target path with mixed
bytes: under every schedule in which both writers complete all their steps,
the content at the cache path is exactly `b1` or exactly `b2`. -/
theorem concurrent_puts_not_torn (root : Path) (f : String)
    (pid1 pid2 : Nat) (k1 k2 : List (List Nat)) (fs : FS) (σ : List Bool)
    (hpid : Nat.repr pid1 ≠ Nat.repr pid2)
    (hdone1 : (execSched (putCfg root f pid1) (putCfg root f pid2) σ
        (initW k1, initW k2, fs)).1.done = true)
    (hdone2 : (execSched (putCfg root f pid1) (putCfg root f pid2) σ
        (initW k1, initW k2, fs)).2.1.done = true) :
    (execSched (putCfg root f pid1) (putCfg root f pid2) σ
        (initW k1, initW k2, fs)).2.2 (root ++ [f]) = some (.file k1.flatten) ∨
    (execSched (putCfg root f pid1) (putCfg root f pid2) σ
        (initW k1, initW k2, fs)).2.2 (root ++ [f]) = some (.file k2.flatten) := by
  have hok : WCfgOk (putCfg root f pid1) (putCfg root f pid2) := by
    refine ⟨rfl, tmpName_pid_ne root f hpid, tmpName_ne_target root f pid1,
      tmpName_ne_target root f pid2, ?_, ?_⟩
    · intro p hp
      refine ⟨?_, ?_, chain_mem_ne_concat hp f⟩
      · show p ≠ tmpName (root ++ [f]) pid1
        rw [tmpName_concat]
        exact chain_mem_ne_concat hp _
      · show p ≠ tmpName (root ++ [f]) pid2
        rw [tmpName_concat]
        exact chain_mem_ne_concat hp _
    · intro p hp
      refine ⟨?_, ?_, chain_mem_ne_concat hp f⟩
      · show p ≠ tmpName (root ++ [f]) pid1
        rw [tmpName_concat]
        exact chain_mem_ne_concat hp _
      · show p ≠ tmpName (root ++ [f]) pid2
        rw [tmpName_concat]
        exact chain_mem_ne_concat hp _
  have hinit : TInv (putCfg root f pid1) (putCfg root f pid2) k1 k2
      (initW k1) (initW k2) fs := by
    refine ⟨⟨rfl, fun _ => ⟨rfl, rfl, rfl⟩, fun hx => Bool.noConfusion hx,
      fun hx => Bool.noConfusion hx⟩,
      ⟨rfl, fun _ => ⟨rfl, rfl, rfl⟩, fun hx => Bool.noConfusion hx,
      fun hx => Bool.noConfusion hx⟩, ?_⟩
    intro hx
    exact hx.elim (fun h1 => Bool.noConfusion h1) (fun h2 => Bool.noConfusion h2)
  obtain ⟨-, -, htar⟩ := execSched_inv (putCfg root f pid1)
    (putCfg root f pid2) k1 k2 hok σ (initW k1) (initW k2) fs hinit
  have hcom : (execSched (putCfg root f pid1) (putCfg root f pid2) σ
      (initW k1, initW k2, fs)).1.committed = true := by
    have hd := hdone1
    unfold WState.done at hd
    simp only [Bool.and_eq_true] at hd
    exact hd.2
  exact htar (Or.inl hcom)

theorem concurrent_puts_not_torn_witness :
    (Nat.repr 1 ≠ Nat.repr 2 ∧
     (execSched (putCfg ["c"] "f" 1) (putCfg ["c"] "f" 2)
        [true, true, true, true, false, false, false, false]
        (initW [[1]], initW [[2]], emptyFS)).1.done = true ∧
     (execSched (putCfg ["c"] "f" 1) (putCfg ["c"] "f" 2)
        [true, true, true, true, false, false, false, false]
        (initW [[1]], initW [[2]], emptyFS)).2.1.done = true) ∧
    ((execSched (putCfg ["c"] "f" 1) (putCfg ["c"] "f" 2)
        [true, true, true, true, false, false, false, false]
        (initW [[1]], initW [[2]], emptyFS)).2.2 (["c"] ++ ["f"]) =
          some (.file (List.flatten [[1]])) ∨
     (execSched (putCfg ["c"] "f" 1) (putCfg ["c"] "f" 2)
        [true, true, true, true, false, false, false, false]
        (initW [[1]], initW [[2]], emptyFS)).2.2 (["c"] ++ ["f"]) =
          some (.file (List.flatten [[2]]))) :=
  ⟨⟨by decide, by decide, by decide⟩,
   concurrent_puts_not_torn ["c"] "f" 1 2 [[1]] [[2]] emptyFS
     [true, true, true, true, false, false, false, false]
     (by decide) (by decide) (by decide)⟩

end PipAccel
